import Mathlib

set_option maxRecDepth 100000

attribute [local semireducible] Rat.add Rat.mul Rat.inv Rat.sub

/-!
Verification of the dolphain acoustic pipeline against its specification.

The definitions below are shallow embeddings of the Python sources:
  * `src/dolphain/io.py` (`read_ears_file`): the EARS frame decoder;
  * `src/dolphain/signal.py` (`threshold`, `wavelet_denoise`, `detect_whistles`);
  * `src/scripts/quick_find.py` (`detect_chirps`, `detect_click_trains`,
    `calculate_interestingness_score`, `calculate_uniqueness_score`).

Machine floats are modelled as exact rationals `ℚ` (or reals `ℝ` where the
source manipulates irrational constants such as the Haar wavelet factor √2),
byte buffers as `List ℕ` with every element a byte value, and Python
exceptions as `Option`/`Except` failures.
-/

namespace Dolphain

/-! ### Frame decoder (`src/dolphain/io.py`, `read_ears_file`)

Constants from the source: `RECORD_SIZE = 512`, `HEADER_SIZE = 12`,
`SAMPLES_PER_RECORD = 250`, `FS = 192000`, `FS_TIME = 32000`.
-/

/-- Decode one big-endian signed 16-bit sample from two bytes, as in
`struct.unpack_from(">250h", ...)`: the unsigned value `hi*256 + lo`
re-interpreted in two's complement. -/
def decodeSample (hi lo : ℕ) : ℤ :=
  let u : ℕ := hi * 256 + lo
  if u < 32768 then (u : ℤ) else (u : ℤ) - 65536

/-- Decode consecutive byte pairs as big-endian signed 16-bit samples
(the `">250h"` unpack applied to a 500-byte block). -/
def decodePairs : List ℕ → List ℤ
  | hi :: lo :: rest => decodeSample hi lo :: decodePairs rest
  | _ => []

/-- The 512-byte records of a raw buffer: `n_records = len(raw) // 512`
full slices; trailing bytes that do not fill a record are dropped. -/
def recordsOf (raw : List ℕ) : List (List ℕ) :=
  (List.range (raw.length / 512)).map (fun i => (raw.drop (512 * i)).take 512)

/-- The 250 samples of one 512-byte record: bytes 12..511 decoded as
big-endian int16 (`struct.unpack_from(">250h", raw_data, offset+12)`). -/
def samplesOfRecord (record : List ℕ) : List ℤ :=
  decodePairs (record.drop 12)

/-- The 12-byte header of each record (`raw_data[offset : offset + 12]`). -/
def headersOf (raw : List ℕ) : List (List ℕ) :=
  (recordsOf raw).map (fun r => r.take 12)

/-- Epoch selected from the file name, as seconds since 2000-01-01:
`datetime(2015, 10, 27)` (5778 days later) when the name starts with `'7'`,
`datetime(2000, 1, 1)` otherwise.  The source would raise `IndexError` on an
empty file name; no claim exercises that case and the non-`'7'` epoch is used
here for `[]`. -/
def epochOf (filename : List Char) : ℚ :=
  match filename with
  | [] => 0
  | c :: _ => if c = '7' then 5778 * 86400 else 0

/-- The 48-bit tick count packed in header bytes 6..11
(`struct.unpack("6x6B", header)` yields `s0..s5`):
`((s0 - 14) / 16) * 2^40 + s1 * 2^32 + s2 * 2^24 + s3 * 2^16 + s4 * 2^8 + s5`.
Python's `/` is float division; it is exact here and modelled in `ℚ`. -/
def ticksOfHeader (header : List ℕ) : ℚ :=
  let s : ℕ → ℚ := fun i => ((header.drop 6).getD i 0 : ℕ)
  ((s 0 - 14) / 16) * 2 ^ 40 + s 1 * 2 ^ 32 + s 2 * 2 ^ 24
    + s 3 * 2 ^ 16 + s 4 * 2 ^ 8 + s 5

/-- Absolute timestamp of one header: `epoch + ticks / FS_TIME` seconds,
`FS_TIME = 32000`. -/
def timestampOfHeader (filename : List Char) (header : List ℕ) : ℚ :=
  epochOf filename + ticksOfHeader header / 32000

/-- The decoder's timestamp pass: a timestamp is appended when `i == 0 or
header != headers[-1]`, where `headers` collects exactly the headers whose
timestamps were appended (`prev` below is `headers[-1]`). -/
def timestampsLoop (filename : List Char) :
    Option (List ℕ) → List (List ℕ) → List ℚ
  | _, [] => []
  | prev, h :: t =>
    if prev = some h then timestampsLoop filename prev t
    else timestampOfHeader filename h :: timestampsLoop filename (some h) t

/-- Timestamps extracted from the record headers of a buffer. -/
def timestampsOf (filename : List Char) (headers : List (List ℕ)) : List ℚ :=
  timestampsLoop filename none headers

/-- A decoded EARS recording (the dictionary returned by `read_ears_file`). -/
structure Recording where
  data : List ℤ
  fs : ℚ
  time_start : ℚ
  time_end : ℚ
  timestamps : List ℚ
  duration : ℚ
  n_samples : ℕ
  deriving DecidableEq, Repr

/-- All decoded samples of a buffer, in record order. -/
def decodedData (raw : List ℕ) : List ℤ :=
  ((recordsOf raw).map samplesOfRecord).flatten

/-- `read_ears_file` on an in-memory buffer, with `normalize=False` (the
default, and the only mode the batch pipeline uses).  Returns `none` where
the source raises: `timestamps[0]` fails with `IndexError` when no record
was parsed. -/
def read_ears_file (filename : List Char) (raw : List ℕ) : Option Recording :=
  match timestampsOf filename (headersOf raw) with
  | [] => none
  | t0 :: _ =>
    some
      { data := decodedData raw
        fs := 192000
        time_start := t0
        time_end := t0 + ((decodedData raw).length : ℚ) / 192000
        timestamps := timestampsOf filename (headersOf raw)
        duration := ((decodedData raw).length : ℚ) / 192000
        n_samples := (decodedData raw).length }

/-- Headers kept by the decoder, characterised as the specification words it:
the first record's header plus every header that differs from the
immediately preceding record's header. -/
def specKeptHeaders (hs : List (List ℕ)) : List (List ℕ) :=
  match hs with
  | [] => []
  | h0 :: rest =>
    h0 :: (List.zip rest hs).filterMap (fun p => if p.1 = p.2 then none else some p.1)

lemma decodePairs_length : ∀ l : List ℕ, (decodePairs l).length = l.length / 2
  | [] => rfl
  | [x] => by simp [decodePairs]
  | hi :: lo :: rest => by
    simp only [decodePairs, List.length_cons, decodePairs_length rest]
    omega

lemma recordsOf_length (raw : List ℕ) : (recordsOf raw).length = raw.length / 512 := by
  simp [recordsOf]

lemma mem_recordsOf_length {raw r : List ℕ} (hr : r ∈ recordsOf raw) :
    r.length = 512 := by
  simp only [recordsOf, List.mem_map, List.mem_range] at hr
  obtain ⟨i, hi, rfl⟩ := hr
  simp only [List.length_take, List.length_drop]
  omega

lemma samplesOfRecord_length {r : List ℕ} (hr : r.length = 512) :
    (samplesOfRecord r).length = 250 := by
  simp [samplesOfRecord, decodePairs_length, hr]

lemma decodedData_length (raw : List ℕ) :
    (decodedData raw).length = 250 * (raw.length / 512) := by
  rw [decodedData, List.length_flatten, List.map_map]
  have hrep : (recordsOf raw).map (List.length ∘ samplesOfRecord) =
      List.replicate (recordsOf raw).length 250 := by
    have hmem : ∀ b ∈ (recordsOf raw).map (List.length ∘ samplesOfRecord), b = 250 := by
      intro b hb
      simp only [List.mem_map, Function.comp] at hb
      obtain ⟨r, hrm, rfl⟩ := hb
      exact samplesOfRecord_length (mem_recordsOf_length hrm)
    have := List.eq_replicate_of_mem hmem
    simpa using this
  rw [hrep, List.sum_replicate, smul_eq_mul, recordsOf_length, Nat.mul_comm]

lemma timestampsOf_eq_nil_iff (f : List Char) (hs : List (List ℕ)) :
    timestampsOf f hs = [] ↔ hs = [] := by
  cases hs with
  | nil => simp [timestampsOf, timestampsLoop]
  | cons h t =>
    simp only [timestampsOf, timestampsLoop]
    rw [if_neg (by simp)]
    simp

lemma headersOf_eq_nil_iff (raw : List ℕ) :
    headersOf raw = [] ↔ raw.length < 512 := by
  simp only [headersOf, recordsOf, List.map_eq_nil_iff, List.range_eq_nil]
  omega

lemma mem_timestampsLoop {f : List Char} {t : ℚ} :
    ∀ {prev : Option (List ℕ)} {hs : List (List ℕ)},
      t ∈ timestampsLoop f prev hs → ∃ h ∈ hs, t = timestampOfHeader f h := by
  intro prev hs
  induction hs generalizing prev with
  | nil => simp [timestampsLoop]
  | cons h rest ih =>
    intro hmem
    rw [timestampsLoop] at hmem
    split at hmem
    · obtain ⟨h', hh', rfl⟩ := ih hmem
      exact ⟨h', List.mem_cons_of_mem _ hh', rfl⟩
    · rcases List.mem_cons.mp hmem with rfl | hmem'
      · exact ⟨h, List.mem_cons_self _ _, rfl⟩
      · obtain ⟨h', hh', rfl⟩ := ih hmem'
        exact ⟨h', List.mem_cons_of_mem _ hh', rfl⟩

lemma timestampsLoop_some_eq (f : List Char) :
    ∀ (rest : List (List ℕ)) (prev : List ℕ),
      timestampsLoop f (some prev) rest =
        ((List.zip rest (prev :: rest)).filterMap
          (fun p => if p.1 = p.2 then none else some p.1)).map (timestampOfHeader f)
  | [], _ => rfl
  | h :: t, prev => by
    by_cases hp : h = prev
    · subst hp
      have hl : timestampsLoop f (some h) (h :: t) = timestampsLoop f (some h) t := by
        rw [timestampsLoop, if_pos rfl]
      rw [hl, timestampsLoop_some_eq f t h]
      congr 1
      simp [List.zip_cons_cons, List.filterMap_cons]
    · have hl : timestampsLoop f (some prev) (h :: t) =
          timestampOfHeader f h :: timestampsLoop f (some h) t := by
        rw [timestampsLoop, if_neg (by simpa [eq_comm] using hp)]
      rw [hl, timestampsLoop_some_eq f t h]
      simp [List.zip_cons_cons, List.filterMap_cons, hp]

lemma timestampsOf_eq_spec (f : List Char) (hs : List (List ℕ)) :
    timestampsOf f hs = (specKeptHeaders hs).map (timestampOfHeader f) := by
  cases hs with
  | nil => rfl
  | cons h0 rest =>
    rw [timestampsOf, timestampsLoop, if_neg (by simp), specKeptHeaders,
      List.map_cons, timestampsLoop_some_eq f rest h0]

lemma timestampsLoop_replicate (f : List Char) (h : List ℕ) :
    ∀ n, timestampsLoop f (some h) (List.replicate n h) = []
  | 0 => rfl
  | n + 1 => by
    rw [List.replicate_succ, timestampsLoop, if_pos rfl]
    exact timestampsLoop_replicate f h n

/-- C1.  The frame decoder parses exactly `⌊len/512⌋` full records, silently
dropping trailing bytes that do not fill a full record, so a buffer holding
at least one full record decodes to a `Recording` with
`n_samples = 250 * ⌊len/512⌋` and `duration = n_samples / 192000`. -/
theorem read_ears_file_parses_full_records (f : List Char) (raw : List ℕ)
    (h : 512 ≤ raw.length) :
    ∃ r, read_ears_file f raw = some r ∧ r.n_samples = 250 * (raw.length / 512) ∧
      r.duration = (r.n_samples : ℚ) / 192000 := by
  rw [read_ears_file]
  split
  · next heq =>
    rw [timestampsOf_eq_nil_iff, headersOf_eq_nil_iff] at heq
    omega
  · next t0 ts heq =>
    exact ⟨_, rfl, decodedData_length raw, rfl⟩

theorem read_ears_file_parses_full_records_witness :
    512 ≤ (List.replicate 512 0 : List ℕ).length ∧
      ∃ r, read_ears_file ['a'] (List.replicate 512 0) = some r ∧
        r.n_samples = 250 * ((List.replicate 512 0 : List ℕ).length / 512) ∧
        r.duration = (r.n_samples : ℚ) / 192000 :=
  ⟨by simp only [List.length_replicate]; exact le_rfl,
    read_ears_file_parses_full_records ['a'] (List.replicate 512 0)
      (by simp only [List.length_replicate]; exact le_rfl)⟩

/-- C7.  The decoder fails (no `Recording`; the source raises `IndexError`
at `timestamps[0]`) exactly when the buffer is empty or shorter than one
full 512-byte record; any buffer with at least one full record succeeds. -/
theorem read_ears_file_none_iff_short (f : List Char) (raw : List ℕ) :
    read_ears_file f raw = none ↔ raw.length < 512 := by
  rw [read_ears_file]
  split
  · next heq =>
    rw [timestampsOf_eq_nil_iff, headersOf_eq_nil_iff] at heq
    simp [heq]
  · next t0 ts heq =>
    have hne : timestampsOf f (headersOf raw) ≠ [] := by rw [heq]; simp
    rw [ne_eq, timestampsOf_eq_nil_iff, headersOf_eq_nil_iff] at hne
    exact iff_of_false (by simp) hne

/-- C4.  A timestamp entry is produced only for the first record or when a
record's 12-byte header differs from the immediately preceding record's
header (the source compares against the last *stored* header, which always
equals the preceding record's header), and a run of records sharing one
identical header contributes at most one entry. -/
theorem timestamps_dedup (f : List Char) (raw : List ℕ) :
    timestampsOf f (headersOf raw) =
      (specKeptHeaders (headersOf raw)).map (timestampOfHeader f) ∧
    ∀ (h : List ℕ) (n : ℕ), (timestampsOf f (List.replicate n h)).length ≤ 1 := by
  refine ⟨timestampsOf_eq_spec f (headersOf raw), ?_⟩
  intro h n
  cases n with
  | zero => simp [timestampsOf, timestampsLoop]
  | succ m =>
    rw [List.replicate_succ, timestampsOf, timestampsLoop, if_neg (by simp),
      timestampsLoop_replicate f h m]
    simp

/-- C2.  Every timestamp appended during decode is computed from some
record's header as `epoch + ticks / 32000` with
`ticks = ((s0-14)/16)·2^40 + s1·2^32 + s2·2^24 + s3·2^16 + s4·2^8 + s5`
over header bytes 6..11, and the epoch of a filename starting with `'7'`
differs from the epoch of every other filename. -/
theorem timestamp_formula (f : List Char) (raw : List ℕ) (r : Recording)
    (hr : read_ears_file f raw = some r) :
    (∀ t ∈ r.timestamps,
      ∃ i < raw.length / 512,
        t = epochOf f + ticksOfHeader ((raw.drop (512 * i)).take 12) / 32000) ∧
    (∀ (c : Char) (cs cs' : List Char), c ≠ '7' →
      epochOf ('7' :: cs) ≠ epochOf (c :: cs')) := by
  constructor
  · intro t ht
    have hts : r.timestamps = timestampsOf f (headersOf raw) := by
      rw [read_ears_file] at hr
      split at hr
      · exact absurd hr (by simp)
      · cases hr; rfl
    rw [hts] at ht
    obtain ⟨h, hh, rfl⟩ := mem_timestampsLoop ht
    simp only [headersOf, recordsOf, List.map_map, List.mem_map, List.mem_range,
      Function.comp] at hh
    obtain ⟨i, hi, rfl⟩ := hh
    refine ⟨i, hi, ?_⟩
    rw [List.take_take]
    rfl
  · intro c cs cs' hc
    have h7 : epochOf ('7' :: cs) = 5778 * 86400 := by simp [epochOf]
    have hother : epochOf (c :: cs') = 0 := by simp [epochOf, hc]
    rw [h7, hother]
    norm_num

/-- A buffer of one all-zero record. -/
def rawZeros : List ℕ := List.replicate 512 0

/-- The timestamp decoded from an all-zero header for a `'7'` file. -/
def tsZeros : ℚ := timestampOfHeader ['7'] (List.replicate 12 0)

/-- The recording decoded from `rawZeros`. -/
def recZeros : Recording :=
  { data := List.replicate 250 0
    fs := 192000
    time_start := tsZeros
    time_end := tsZeros + 250 / 192000
    timestamps := [tsZeros]
    duration := 250 / 192000
    n_samples := 250 }

theorem timestamp_formula_witness :
    read_ears_file ['7'] rawZeros = some recZeros ∧ tsZeros ∈ recZeros.timestamps ∧
      ∃ i < rawZeros.length / 512,
        tsZeros = epochOf ['7'] + ticksOfHeader ((rawZeros.drop (512 * i)).take 12) / 32000 :=
  ⟨by decide, by decide,
    (timestamp_formula ['7'] rawZeros recZeros (by decide)).1 tsZeros (by decide)⟩

/-! ### Thresholding and wavelet denoising (`src/dolphain/signal.py`)

`threshold(x_in, delta, hard)` computes `x_thresh_indices = abs(x_in) < delta`
from the *original* input, applies the soft shrink
`sign(x) * (abs(x) - delta)` when `hard=False`, and finally zeroes every
position recorded in `x_thresh_indices`.  `thresholdOp` is that operation on
one scalar; the source vectorizes it over arrays (`threshold`).
The reals `ℝ` model IEEE floats exactly here. -/

noncomputable def thresholdOp (x delta : ℝ) (hard : Bool) : ℝ :=
  if |x| < delta then 0
  else if hard then x else Real.sign x * (|x| - delta)

/-- `threshold` applied to a whole array. -/
noncomputable def threshold (xs : List ℝ) (delta : ℝ) (hard : Bool) : List ℝ :=
  xs.map (fun x => thresholdOp x delta hard)

lemma thresholdOp_zero (delta : ℝ) (hard : Bool) : thresholdOp 0 delta hard = 0 := by
  unfold thresholdOp
  rcases lt_or_le 0 delta with h | h
  · rw [if_pos (by simpa using h)]
  · rw [if_neg (by simpa using h)]
    cases hard with
    | true => simp
    | false => simp [Real.sign_zero]

lemma thresholdOp_abs_le (x delta : ℝ) (hd : 0 ≤ delta) (hard : Bool) :
    |thresholdOp x delta hard| ≤ |x| := by
  unfold thresholdOp
  split
  · simp only [abs_zero]
    exact abs_nonneg x
  · next hge =>
    push_neg at hge
    cases hard with
    | true => simp
    | false =>
      simp only [Bool.false_eq_true, if_false]
      rcases lt_trichotomy x 0 with hx | hx | hx
      · rw [Real.sign_of_neg hx, abs_of_neg hx] at *
        rw [abs_of_nonpos (by nlinarith)]
        nlinarith
      · subst hx
        simp [Real.sign_zero]
      · rw [Real.sign_of_pos hx, abs_of_pos hx] at *
        rw [abs_of_nonneg (by nlinarith)]
        nlinarith

lemma thresholdOp_small {x delta : ℝ} (h : |x| < delta) (hard : Bool) :
    thresholdOp x delta hard = 0 := by
  unfold thresholdOp
  rw [if_pos h]

/-- C10.  Thresholding never increases any element's magnitude, and elements
with `|x| < delta` map exactly to `0`, in both soft and hard modes. -/
theorem threshold_contraction (xs : List ℝ) (delta : ℝ) (hd : 0 ≤ delta) (hard : Bool) :
    ∀ i : ℕ, |(threshold xs delta hard).getD i 0| ≤ |xs.getD i 0| ∧
      (|xs.getD i 0| < delta → (threshold xs delta hard).getD i 0 = 0) := by
  intro i
  rcases lt_or_le i xs.length with hi | hi
  · have hget : (threshold xs delta hard).getD i 0 =
        thresholdOp (xs.getD i 0) delta hard := by
      rw [threshold, List.getD_eq_getElem?_getD, List.getElem?_map,
        List.getD_eq_getElem?_getD, List.getElem?_eq_getElem hi]
      rfl
    rw [hget]
    exact ⟨thresholdOp_abs_le _ _ hd hard, fun h => thresholdOp_small h hard⟩
  · have h1 : (threshold xs delta hard).getD i 0 = 0 := by
      rw [List.getD_eq_getElem?_getD, List.getElem?_eq_none (by simpa [threshold] using hi)]
      rfl
    have h2 : xs.getD i 0 = 0 := by
      rw [List.getD_eq_getElem?_getD, List.getElem?_eq_none hi]
      rfl
    rw [h1, h2]
    exact ⟨le_rfl, fun _ => rfl⟩

theorem threshold_contraction_witness :
    0 ≤ (1 : ℝ) ∧
      ∀ i : ℕ, |(threshold [2, 0] 1 false).getD i 0| ≤ |([2, 0] : List ℝ).getD i 0| ∧
        (|([2, 0] : List ℝ).getD i 0| < 1 → (threshold [2, 0] 1 false).getD i 0 = 0) :=
  ⟨zero_le_one, threshold_contraction [2, 0] 1 zero_le_one false⟩

/-! ### `wavelet_denoise` (`src/dolphain/signal.py`)

`wavelet_denoise(data, wavelet, thresh, ...)` removes the mean, runs
`pywt.wavedec(data, wavelet)`, thresholds every coefficient array with the
fixed explicit `thresh` (claim C9 fixes the threshold, so the `thresh=None`
sigma-estimation branch is not exercised), reconstructs with `pywt.waverec`,
and truncates to the input length.  `waveletDenoise2` embeds this for the
`'haar'` wavelet on a two-sample signal, where `pywt.wavedec` is a single
level with analysis filters `(1/√2, 1/√2)` and `(1/√2, -1/√2)`, no boundary
padding occurs, and reconstruction is the transpose; the output length
already matches, so the truncation step is a no-op. -/

noncomputable def waveletDenoise2 (s : ℝ × ℝ) (thresh : ℝ) (hard : Bool) : ℝ × ℝ :=
  let m := (s.1 + s.2) / 2
  let u1 := s.1 - m
  let u2 := s.2 - m
  let a := (u1 + u2) / Real.sqrt 2
  let d := (u1 - u2) / Real.sqrt 2
  let a' := thresholdOp a thresh hard
  let d' := thresholdOp d thresh hard
  ((a' + d') / Real.sqrt 2, (a' - d') / Real.sqrt 2)

/-- Residual energy `‖s - y‖²` between a signal and an approximation. -/
def resEnergy (s y : ℝ × ℝ) : ℝ := (s.1 - y.1) ^ 2 + (s.2 - y.2) ^ 2

lemma waveletDenoise2_eq (s : ℝ × ℝ) (thresh : ℝ) (hard : Bool) :
    waveletDenoise2 s thresh hard =
      (thresholdOp ((s.1 - s.2) / Real.sqrt 2) thresh hard / Real.sqrt 2,
       -(thresholdOp ((s.1 - s.2) / Real.sqrt 2) thresh hard / Real.sqrt 2)) := by
  simp only [waveletDenoise2]
  have ha : (s.1 - (s.1 + s.2) / 2 + (s.2 - (s.1 + s.2) / 2)) / Real.sqrt 2 = 0 := by
    ring_nf
  have hd : (s.1 - (s.1 + s.2) / 2 - (s.2 - (s.1 + s.2) / 2)) / Real.sqrt 2 =
      (s.1 - s.2) / Real.sqrt 2 := by
    ring_nf
  rw [ha, hd, thresholdOp_zero]
  refine Prod.ext ?_ ?_
  · simp only []
    ring
  · simp only []
    ring

lemma thresholdOp_hard (y delta : ℝ) :
    thresholdOp y delta true = if |y| < delta then 0 else y := by
  unfold thresholdOp
  split <;> simp

lemma thresholdOp_soft_of_not_lt {y delta : ℝ} (h : ¬ |y| < delta) :
    thresholdOp y delta false = Real.sign y * (|y| - delta) := by
  unfold thresholdOp
  rw [if_neg h]
  simp

/-- One thresholding pass followed by a second never shrinks the pointwise
residual: `(y - T(T y))² ≥ (y - T y)²`. -/
lemma thresholdOp_twice_residual (y delta : ℝ) (hd : 0 ≤ delta) (hard : Bool) :
    (y - thresholdOp y delta hard) ^ 2 ≤
      (y - thresholdOp (thresholdOp y delta hard) delta hard) ^ 2 := by
  by_cases h1 : |y| < delta
  · rw [thresholdOp_small h1, thresholdOp_zero]
  · cases hard with
    | true =>
      rw [thresholdOp_hard, if_neg h1, thresholdOp_hard, if_neg h1]
    | false =>
      rcases lt_trichotomy y 0 with hy | rfl | hy
      · -- y < 0 : T y = -( -y - delta ) = y + delta with delta ≤ -y
        have habs : |y| = -y := abs_of_neg hy
        have hdy : delta ≤ -y := by rw [habs] at h1; linarith [not_lt.mp h1]
        have hT : thresholdOp y delta false = y + delta := by
          rw [thresholdOp_soft_of_not_lt h1, Real.sign_of_neg hy, habs]
          ring
        rw [hT]
        by_cases h2 : |y + delta| < delta
        · rw [thresholdOp_small h2]
          have : 0 ≤ -y - delta := by linarith
          nlinarith
        · have hneg : y + delta < 0 := by
            by_contra hge
            push_neg at hge
            rw [abs_of_nonneg hge] at h2
            push_neg at h2
            linarith
          have habs2 : |y + delta| = -(y + delta) := abs_of_neg hneg
          have hT2 : thresholdOp (y + delta) delta false = y + 2 * delta := by
            rw [thresholdOp_soft_of_not_lt h2, Real.sign_of_neg hneg, habs2]
            ring
          rw [hT2]
          have : delta ≤ -(y + delta) := by rw [habs2] at h2; linarith [not_lt.mp h2]
          nlinarith
      · -- y = 0 with ¬ |0| < delta forces delta = 0
        have hd0 : delta = 0 := by
          simp only [abs_zero] at h1
          linarith [not_lt.mp h1]
        subst hd0
        simp [thresholdOp_soft_of_not_lt h1, Real.sign_zero, thresholdOp_zero]
      · -- y > 0 : T y = y - delta with delta ≤ y
        have habs : |y| = y := abs_of_pos hy
        have hdy : delta ≤ y := by rw [habs] at h1; linarith [not_lt.mp h1]
        have hT : thresholdOp y delta false = y - delta := by
          rw [thresholdOp_soft_of_not_lt h1, Real.sign_of_pos hy, habs]
          ring
        rw [hT]
        by_cases h2 : |y - delta| < delta
        · rw [thresholdOp_small h2]
          nlinarith
        · have hnn : 0 ≤ y - delta := by linarith
          have habs2 : |y - delta| = y - delta := abs_of_nonneg hnn
          have hpos : 0 < y - delta := by
            by_contra hge
            push_neg at hge
            have heq : y - delta = 0 := le_antisymm hge hnn
            rw [heq, abs_zero] at h2
            push_neg at h2
            linarith
          have hT2 : thresholdOp (y - delta) delta false = y - 2 * delta := by
            rw [thresholdOp_soft_of_not_lt h2, Real.sign_of_pos hpos, habs2]
            ring
          rw [hT2]
          have : delta ≤ y - delta := by rw [habs2] at h2; linarith [not_lt.mp h2]
          nlinarith

lemma sqrt_two_sq : Real.sqrt 2 ^ 2 = 2 := Real.sq_sqrt (by norm_num)

lemma sqrt_two_pos : (0 : ℝ) < Real.sqrt 2 := Real.sqrt_pos.mpr (by norm_num)

lemma resEnergy_w (s : ℝ × ℝ) (w : ℝ) :
    resEnergy s (w / Real.sqrt 2, -(w / Real.sqrt 2)) =
      s.1 ^ 2 + s.2 ^ 2 - 2 * ((s.1 - s.2) / Real.sqrt 2) * w + w ^ 2 := by
  unfold resEnergy
  have hne : Real.sqrt 2 ≠ 0 := ne_of_gt sqrt_two_pos
  field_simp
  ring_nf
  linear_combination (2 * s.2 * w - 2 * s.1 * w + s.1 ^ 2 * Real.sqrt 2
    + s.2 ^ 2 * Real.sqrt 2) * sqrt_two_sq

/-- C9 (amended).  A second denoising pass with the same fixed wavelet and
threshold can only remove more: the residual energy of
`signal - denoise(denoise(signal))` is at least (not at most) the residual
energy of `signal - denoise(signal)`. -/
theorem denoise_second_pass_residual_ge (s : ℝ × ℝ) (thresh : ℝ) (hard : Bool)
    (hd : 0 ≤ thresh) :
    resEnergy s (waveletDenoise2 s thresh hard) ≤
      resEnergy s (waveletDenoise2 (waveletDenoise2 s thresh hard) thresh hard) := by
  have hne : Real.sqrt 2 ≠ 0 := ne_of_gt sqrt_two_pos
  set d : ℝ := (s.1 - s.2) / Real.sqrt 2 with hddef
  set T : ℝ := thresholdOp d thresh hard with hTdef
  have h1 : waveletDenoise2 s thresh hard = (T / Real.sqrt 2, -(T / Real.sqrt 2)) :=
    waveletDenoise2_eq s thresh hard
  have harg : (T / Real.sqrt 2 - -(T / Real.sqrt 2)) / Real.sqrt 2 = T := by
    field_simp
  have h2 : waveletDenoise2 (T / Real.sqrt 2, -(T / Real.sqrt 2)) thresh hard =
      (thresholdOp T thresh hard / Real.sqrt 2, -(thresholdOp T thresh hard / Real.sqrt 2)) := by
    rw [waveletDenoise2_eq]
    simp only [harg]
  rw [h1, h2, resEnergy_w, resEnergy_w, ← hddef]
  have key := thresholdOp_twice_residual d thresh hd hard
  rw [← hTdef] at key
  nlinarith [key]

theorem denoise_second_pass_residual_ge_witness :
    0 ≤ (1 : ℝ) ∧
      resEnergy (3, 0) (waveletDenoise2 (3, 0) 1 false) ≤
        resEnergy (3, 0) (waveletDenoise2 (waveletDenoise2 (3, 0) 1 false) 1 false) :=
  ⟨zero_le_one, denoise_second_pass_residual_ge (3, 0) 1 false zero_le_one⟩

/-- C9 (counterexample).  With the Haar wavelet, soft thresholding and the
fixed threshold `√2`, the signal `(3, 0)` has
`‖s - denoise(denoise(s))‖² = 9 > 13/2 = ‖s - denoise(s)‖²`, refuting the
claimed `≤` direction. -/
theorem denoise_idempotence_bound_false :
    ¬ (resEnergy (3, 0)
        (waveletDenoise2 (waveletDenoise2 (3, 0) (Real.sqrt 2) false) (Real.sqrt 2) false) ≤
       resEnergy (3, 0) (waveletDenoise2 (3, 0) (Real.sqrt 2) false)) := by
  have hne : Real.sqrt 2 ≠ 0 := ne_of_gt sqrt_two_pos
  have hgt1 : 1 < Real.sqrt 2 := by
    nlinarith [sqrt_two_sq, sqrt_two_pos]
  have hd3 : ((3 : ℝ) - 0) / Real.sqrt 2 = 3 / Real.sqrt 2 := by ring
  have hdpos : 0 < 3 / Real.sqrt 2 := by positivity
  have hnotlt : ¬ |3 / Real.sqrt 2| < Real.sqrt 2 := by
    rw [abs_of_pos hdpos]
    rw [div_lt_iff₀ sqrt_two_pos]
    nlinarith [sqrt_two_sq]
  have hT : thresholdOp (3 / Real.sqrt 2) (Real.sqrt 2) false =
      3 / Real.sqrt 2 - Real.sqrt 2 := by
    rw [thresholdOp_soft_of_not_lt hnotlt, Real.sign_of_pos hdpos, abs_of_pos hdpos]
    ring
  have hD : waveletDenoise2 (3, 0) (Real.sqrt 2) false = (1 / 2, -(1 / 2)) := by
    rw [waveletDenoise2_eq]
    simp only [hd3, hT]
    have hfst : (3 / Real.sqrt 2 - Real.sqrt 2) / Real.sqrt 2 = 1 / 2 := by
      field_simp
      ring_nf
    rw [hfst]
  have harg2 : ((1 : ℝ) / 2 - -(1 / 2)) / Real.sqrt 2 = 1 / Real.sqrt 2 := by
    ring
  have hlt2 : |1 / Real.sqrt 2| < Real.sqrt 2 := by
    rw [abs_of_pos (by positivity)]
    rw [div_lt_iff₀ sqrt_two_pos]
    nlinarith [sqrt_two_sq]
  have hDD : waveletDenoise2 ((1 : ℝ) / 2, -(1 / 2)) (Real.sqrt 2) false = (0, 0) := by
    rw [waveletDenoise2_eq]
    simp only [harg2, thresholdOp_small hlt2]
    norm_num
  rw [hD, hDD]
  unfold resEnergy
  norm_num

/-! ### Scoring (`src/scripts/quick_find.py`)

`calculate_interestingness_score(result, chirps, click_trains, signal_clean, fs)`
reads `n_chirps`, `n_click_trains`, `total_clicks` from the result dictionary,
per-chirp `freq_sweep`, `sweep_rate`, `start_freq` and per-train `std_ici`,
`click_rate` from the detector outputs, and an SNR estimate from band powers
of the cleaned signal.  Two quantities are irrational in the source and enter
here as inputs constrained only by what the source guarantees:
`freq_std` stands for `np.std(start_freqs)` (a square root, always ≥ 0) and
`snr`/`snr_ok` stand for the `10*log10(signal_power/noise_power)` value and
for whether both FFT band masks were nonempty and no exception occurred
(the `try`/`except: pass` contributes 0 otherwise). -/

/-- A chirp record as produced by `detect_chirps`. -/
structure Chirp where
  start_time : ℚ
  end_time : ℚ
  duration : ℚ
  start_freq : ℚ
  end_freq : ℚ
  freq_sweep : ℚ
  sweep_rate : ℚ
  min_freq : ℚ
  max_freq : ℚ
  n_points : ℕ
  deriving DecidableEq, Repr

/-- The per-train fields the scorer reads from a click-train record:
`std_ici` (an `np.std`, hence ≥ 0) and `click_rate`. -/
structure ClickTrainStats where
  std_ici : ℚ
  click_rate : ℚ
  deriving DecidableEq, Repr

/-- The counts the scorer reads from the per-file result dictionary. -/
structure ResultCounts where
  n_chirps : ℕ
  n_click_trains : ℕ
  total_clicks : ℕ
  deriving DecidableEq, Repr

/-- `np.mean` of a list (the source only applies it to nonempty lists). -/
def listMean (xs : List ℚ) : ℚ := xs.sum / xs.length

def calculate_interestingness_score (result : ResultCounts) (chirps : List Chirp)
    (click_trains : List ClickTrainStats) (freq_std snr : ℚ) (snr_ok : Bool) : ℚ :=
  -- Basic chirp count (15 points)
  min 15 ((result.n_chirps : ℚ) / 20 * 15)
  -- Chirp quality: sweep range and rate (15 points)
  + (if chirps ≠ [] then
       min 10 (listMean (chirps.map Chirp.freq_sweep) / 5000 * 10)
         + min 5 (listMean (chirps.map Chirp.sweep_rate) / 2000 * 5)
     else 0)
  -- Chirp diversity (10 points): np.std of the start frequencies
  + (if 2 ≤ chirps.length then min 10 (freq_std / 5000 * 10) else 0)
  -- Click train count (10 points)
  + min 10 ((result.n_click_trains : ℚ) / 10 * 10)
  -- Total clicks (10 points)
  + min 10 ((result.total_clicks : ℚ) / 100 * 10)
  -- Click train regularity (10 points), normalised by 20 ms
  + (if click_trains ≠ [] then
       max 0 (1 - listMean (click_trains.map ClickTrainStats.std_ici) / (1 / 50)) * 10
     else 0)
  -- Click rate quality (10 points), typical dolphin rates 20-200 clicks/sec
  + (if click_trains ≠ [] then
       (if 20 ≤ listMean (click_trains.map ClickTrainStats.click_rate) ∧
           listMean (click_trains.map ClickTrainStats.click_rate) ≤ 200 then 10
        else if listMean (click_trains.map ClickTrainStats.click_rate) < 20 then
          listMean (click_trains.map ClickTrainStats.click_rate) / 20 * 10
        else max 0 (10 - (listMean (click_trains.map ClickTrainStats.click_rate) - 200) / 100))
     else 0)
  -- Signal quality (20 points) from the band-power SNR
  + (if snr_ok then min 20 (max 0 (snr / 30 * 20)) else 0)

/-- The feature dictionary produced by `detect_unique_features`; counts are
naturals, `spectral_entropy` (a Shannon entropy, ≥ 0) and the frequency
fields are rationals. -/
structure UniqueFeatures where
  active_bands : ℕ
  spectral_entropy : ℚ
  freq_range : ℚ
  max_freq : ℚ
  max_simultaneous : ℕ
  fast_sweeps : ℕ
  harmonics : ℕ
  burst_clicks : ℕ
  click_regularity : Bool
  deriving DecidableEq, Repr

def calculate_uniqueness_score (features : UniqueFeatures) : ℚ :=
  min 100
    -- Multi-band activity (0-15 pts)
    (min 15 ((features.active_bands : ℚ) * 3)
    -- Spectral diversity (0-10 pts)
    + min 10 (features.spectral_entropy / 5 * 10)
    -- Frequency range (0-10 pts)
    + min 10 (features.freq_range / 50000 * 10)
    -- Extreme frequencies (0-5 pts)
    + (if 100000 < features.max_freq then 5
       else if 80000 < features.max_freq then 3 else 0)
    -- Simultaneous signals (0-10 pts)
    + (if 4 ≤ features.max_simultaneous then 10
       else if 3 ≤ features.max_simultaneous then 7
       else if 2 ≤ features.max_simultaneous then 4 else 0)
    -- Harmonics (0-10 pts)
    + min 10 ((features.harmonics : ℚ) / 2)
    -- Fast sweeps (0-10 pts)
    + (if 5 ≤ features.fast_sweeps then 10
       else if 3 ≤ features.fast_sweeps then 7
       else if 1 ≤ features.fast_sweeps then 4 else 0)
    -- Burst clicks (0-8 pts)
    + min 8 ((features.burst_clicks : ℚ) / 5)
    -- Unusual regularity (0-5 pts)
    + (if features.click_regularity then 5 else 0))

lemma listMean_nonneg {xs : List ℚ} (h : ∀ x ∈ xs, 0 ≤ x) : 0 ≤ listMean xs :=
  div_nonneg (List.sum_nonneg h) (by positivity)

lemma rate_quality_bounds (r : ℚ) (hr : 0 ≤ r) :
    0 ≤ (if 20 ≤ r ∧ r ≤ 200 then (10 : ℚ)
         else if r < 20 then r / 20 * 10 else max 0 (10 - (r - 200) / 100)) ∧
      (if 20 ≤ r ∧ r ≤ 200 then (10 : ℚ)
       else if r < 20 then r / 20 * 10 else max 0 (10 - (r - 200) / 100)) ≤ 10 := by
  split
  · norm_num
  · next h1 =>
    split
    · constructor
      · exact mul_nonneg (div_nonneg hr (by norm_num)) (by norm_num)
      · next h2 => nlinarith
    · next h2 =>
      push_neg at h2
      have h3 : 200 < r := by
        by_contra hle
        push_neg at hle
        exact h1 ⟨h2, hle⟩
      exact ⟨le_max_left _ _, max_le (by norm_num) (by nlinarith)⟩

lemma regularity_bounds (m : ℚ) (hm : 0 ≤ m) :
    0 ≤ max 0 (1 - m / (1 / 50)) * 10 ∧ max 0 (1 - m / (1 / 50)) * 10 ≤ 10 := by
  constructor
  · exact mul_nonneg (le_max_left _ _) (by norm_num)
  · have h1 : max 0 (1 - m / (1 / 50)) ≤ 1 := max_le (by norm_num) (by nlinarith)
    nlinarith

/-- C3.  For every detector output with non-negative counts, sweeps, rates,
standard deviations and entropies (which the detectors guarantee), both
scoring functions return a value in `[0, 100]`. -/
theorem score_bounds (result : ResultCounts) (chirps : List Chirp)
    (click_trains : List ClickTrainStats) (freq_std snr : ℚ) (snr_ok : Bool)
    (features : UniqueFeatures)
    (hsweep : ∀ c ∈ chirps, 0 ≤ c.freq_sweep)
    (hrate : ∀ c ∈ chirps, 0 ≤ c.sweep_rate)
    (hstd : ∀ ct ∈ click_trains, 0 ≤ ct.std_ici)
    (hcr : ∀ ct ∈ click_trains, 0 ≤ ct.click_rate)
    (hfs : 0 ≤ freq_std)
    (hent : 0 ≤ features.spectral_entropy)
    (hfr : 0 ≤ features.freq_range) :
    (0 ≤ calculate_interestingness_score result chirps click_trains freq_std snr snr_ok ∧
      calculate_interestingness_score result chirps click_trains freq_std snr snr_ok ≤ 100) ∧
    (0 ≤ calculate_uniqueness_score features ∧ calculate_uniqueness_score features ≤ 100) := by
  have hmsweep : 0 ≤ listMean (chirps.map Chirp.freq_sweep) := by
    refine listMean_nonneg ?_
    intro x hx
    obtain ⟨c, hc, rfl⟩ := List.mem_map.mp hx
    exact hsweep c hc
  have hmrate : 0 ≤ listMean (chirps.map Chirp.sweep_rate) := by
    refine listMean_nonneg ?_
    intro x hx
    obtain ⟨c, hc, rfl⟩ := List.mem_map.mp hx
    exact hrate c hc
  have hmstd : 0 ≤ listMean (click_trains.map ClickTrainStats.std_ici) := by
    refine listMean_nonneg ?_
    intro x hx
    obtain ⟨c, hc, rfl⟩ := List.mem_map.mp hx
    exact hstd c hc
  have hmcr : 0 ≤ listMean (click_trains.map ClickTrainStats.click_rate) := by
    refine listMean_nonneg ?_
    intro x hx
    obtain ⟨c, hc, rfl⟩ := List.mem_map.mp hx
    exact hcr c hc
  constructor
  · unfold calculate_interestingness_score
    have hA : 0 ≤ min 15 ((result.n_chirps : ℚ) / 20 * 15) ∧
        min 15 ((result.n_chirps : ℚ) / 20 * 15) ≤ 15 :=
      ⟨le_min (by norm_num) (by positivity), min_le_left _ _⟩
    have hB : 0 ≤ (if chirps ≠ [] then
          min 10 (listMean (chirps.map Chirp.freq_sweep) / 5000 * 10)
            + min 5 (listMean (chirps.map Chirp.sweep_rate) / 2000 * 5)
        else 0) ∧
        (if chirps ≠ [] then
          min 10 (listMean (chirps.map Chirp.freq_sweep) / 5000 * 10)
            + min 5 (listMean (chirps.map Chirp.sweep_rate) / 2000 * 5)
        else 0) ≤ 15 := by
      split
      · constructor
        · exact add_nonneg
            (le_min (by norm_num) (mul_nonneg (div_nonneg hmsweep (by norm_num)) (by norm_num)))
            (le_min (by norm_num) (mul_nonneg (div_nonneg hmrate (by norm_num)) (by norm_num)))
        · have h1 := min_le_left (10 : ℚ)
            (listMean (chirps.map Chirp.freq_sweep) / 5000 * 10)
          have h2 := min_le_left (5 : ℚ)
            (listMean (chirps.map Chirp.sweep_rate) / 2000 * 5)
          linarith
      · norm_num
    have hC : 0 ≤ (if 2 ≤ chirps.length then min 10 (freq_std / 5000 * 10) else 0) ∧
        (if 2 ≤ chirps.length then min 10 (freq_std / 5000 * 10) else 0) ≤ 10 := by
      split
      · exact ⟨le_min (by norm_num) (mul_nonneg (div_nonneg hfs (by norm_num)) (by norm_num)),
          min_le_left _ _⟩
      · norm_num
    have hD : 0 ≤ min 10 ((result.n_click_trains : ℚ) / 10 * 10) ∧
        min 10 ((result.n_click_trains : ℚ) / 10 * 10) ≤ 10 :=
      ⟨le_min (by norm_num) (by positivity), min_le_left _ _⟩
    have hE : 0 ≤ min 10 ((result.total_clicks : ℚ) / 100 * 10) ∧
        min 10 ((result.total_clicks : ℚ) / 100 * 10) ≤ 10 :=
      ⟨le_min (by norm_num) (by positivity), min_le_left _ _⟩
    have hF : 0 ≤ (if click_trains ≠ [] then
          max 0 (1 - listMean (click_trains.map ClickTrainStats.std_ici) / (1 / 50)) * 10
        else 0) ∧
        (if click_trains ≠ [] then
          max 0 (1 - listMean (click_trains.map ClickTrainStats.std_ici) / (1 / 50)) * 10
        else 0) ≤ 10 := by
      split
      · exact regularity_bounds _ hmstd
      · norm_num
    have hG : 0 ≤ (if click_trains ≠ [] then
          (if 20 ≤ listMean (click_trains.map ClickTrainStats.click_rate) ∧
              listMean (click_trains.map ClickTrainStats.click_rate) ≤ 200 then (10 : ℚ)
           else if listMean (click_trains.map ClickTrainStats.click_rate) < 20 then
             listMean (click_trains.map ClickTrainStats.click_rate) / 20 * 10
           else max 0 (10 - (listMean (click_trains.map ClickTrainStats.click_rate) - 200) / 100))
        else 0) ∧
        (if click_trains ≠ [] then
          (if 20 ≤ listMean (click_trains.map ClickTrainStats.click_rate) ∧
              listMean (click_trains.map ClickTrainStats.click_rate) ≤ 200 then (10 : ℚ)
           else if listMean (click_trains.map ClickTrainStats.click_rate) < 20 then
             listMean (click_trains.map ClickTrainStats.click_rate) / 20 * 10
           else max 0 (10 - (listMean (click_trains.map ClickTrainStats.click_rate) - 200) / 100))
        else 0) ≤ 10 := by
      split
      · exact rate_quality_bounds _ hmcr
      · norm_num
    have hH : 0 ≤ (if snr_ok then min 20 (max 0 (snr / 30 * 20)) else 0) ∧
        (if snr_ok then min 20 (max 0 (snr / 30 * 20)) else 0) ≤ 20 := by
      split
      · exact ⟨le_min (by norm_num) (le_max_left _ _), min_le_left _ _⟩
      · norm_num
    constructor
    · linarith [hA.1, hB.1, hC.1, hD.1, hE.1, hF.1, hG.1, hH.1]
    · linarith [hA.2, hB.2, hC.2, hD.2, hE.2, hF.2, hG.2, hH.2]
  · unfold calculate_uniqueness_score
    have hS : 0 ≤ min 15 ((features.active_bands : ℚ) * 3)
        + min 10 (features.spectral_entropy / 5 * 10)
        + min 10 (features.freq_range / 50000 * 10)
        + (if 100000 < features.max_freq then (5 : ℚ)
           else if 80000 < features.max_freq then 3 else 0)
        + (if 4 ≤ features.max_simultaneous then (10 : ℚ)
           else if 3 ≤ features.max_simultaneous then 7
           else if 2 ≤ features.max_simultaneous then 4 else 0)
        + min 10 ((features.harmonics : ℚ) / 2)
        + (if 5 ≤ features.fast_sweeps then (10 : ℚ)
           else if 3 ≤ features.fast_sweeps then 7
           else if 1 ≤ features.fast_sweeps then 4 else 0)
        + min 8 ((features.burst_clicks : ℚ) / 5)
        + (if features.click_regularity then (5 : ℚ) else 0) := by
      have h1 : 0 ≤ min (15 : ℚ) ((features.active_bands : ℚ) * 3) :=
        le_min (by norm_num) (by positivity)
      have h2 : 0 ≤ min (10 : ℚ) (features.spectral_entropy / 5 * 10) :=
        le_min (by norm_num) (mul_nonneg (div_nonneg hent (by norm_num)) (by norm_num))
      have h3 : 0 ≤ min (10 : ℚ) (features.freq_range / 50000 * 10) :=
        le_min (by norm_num) (mul_nonneg (div_nonneg hfr (by norm_num)) (by norm_num))
      have h4 : 0 ≤ (if 100000 < features.max_freq then (5 : ℚ)
          else if 80000 < features.max_freq then 3 else 0) := by
        split
        · norm_num
        · split <;> norm_num
      have h5 : 0 ≤ (if 4 ≤ features.max_simultaneous then (10 : ℚ)
          else if 3 ≤ features.max_simultaneous then 7
          else if 2 ≤ features.max_simultaneous then 4 else 0) := by
        split
        · norm_num
        · split
          · norm_num
          · split <;> norm_num
      have h6 : 0 ≤ min (10 : ℚ) ((features.harmonics : ℚ) / 2) :=
        le_min (by norm_num) (by positivity)
      have h7 : 0 ≤ (if 5 ≤ features.fast_sweeps then (10 : ℚ)
          else if 3 ≤ features.fast_sweeps then 7
          else if 1 ≤ features.fast_sweeps then 4 else 0) := by
        split
        · norm_num
        · split
          · norm_num
          · split <;> norm_num
      have h8 : 0 ≤ min (8 : ℚ) ((features.burst_clicks : ℚ) / 5) :=
        le_min (by norm_num) (by positivity)
      have h9 : 0 ≤ (if features.click_regularity then (5 : ℚ) else 0) := by
        split <;> norm_num
      linarith
    exact ⟨le_min (by norm_num) hS, min_le_left _ _⟩

theorem score_bounds_witness :
    ((∀ c ∈ ([] : List Chirp), 0 ≤ c.freq_sweep) ∧
     (∀ c ∈ ([] : List Chirp), 0 ≤ c.sweep_rate) ∧
     (∀ ct ∈ ([] : List ClickTrainStats), 0 ≤ ct.std_ici) ∧
     (∀ ct ∈ ([] : List ClickTrainStats), 0 ≤ ct.click_rate) ∧
     0 ≤ (0 : ℚ)) ∧
    (0 ≤ calculate_interestingness_score ⟨0, 0, 0⟩ [] [] 0 0 false ∧
      calculate_interestingness_score ⟨0, 0, 0⟩ [] [] 0 0 false ≤ 100) ∧
    (0 ≤ calculate_uniqueness_score ⟨0, 0, 0, 0, 0, 0, 0, 0, false⟩ ∧
      calculate_uniqueness_score ⟨0, 0, 0, 0, 0, 0, 0, 0, false⟩ ≤ 100) :=
  ⟨⟨by simp, by simp, by simp, by simp, le_refl 0⟩,
    score_bounds ⟨0, 0, 0⟩ [] [] 0 0 false ⟨0, 0, 0, 0, 0, 0, 0, 0, false⟩
      (by simp) (by simp) (by simp) (by simp) (le_refl 0) (le_refl 0) (le_refl 0)⟩

/-! ### Click-train detector (`src/scripts/quick_find.py`, `detect_click_trains`)

The signal-processing front end (Butterworth band-pass `sosfiltfilt`, Hilbert
envelope, median smoothing, `find_peaks` with height/distance/prominence/width
constraints, and the ±2 ms local-dominance filter at the 92nd percentile) is
transcendental; its output — the surviving sharp-peak sample indices, in
ascending order as `find_peaks` returns them — enters the embedding as the
`peak_indices` parameter.  Everything from the band-validity guard and the
`min_clicks` count guard through peak-time conversion, ICI grouping and the
regularity filter is translated directly.  The source's coefficient of
variation test `std_ici / mean_ici < 0.5` (a square root) is represented by
the equivalent rational comparison `var_ici < mean_ici² / 4`, valid because
`mean_ici > 0` is checked first; the emitted `std_ici` and `regularity_cv`
fields are carried as the variance `ici_var` (their square times `mean_ici²`
respectively). -/

/-- The lower band-pass edge as a fraction of Nyquist, clamped away from 0:
`low = max(freq_range[0] / nyquist, 0.001)`. -/
def bandLow (fs f0 : ℚ) : ℚ := max (f0 / (fs / 2)) (1 / 1000)

/-- The upper band-pass edge as a fraction of Nyquist, clamped below 1:
`high = min(freq_range[1] / nyquist, 0.999)`. -/
def bandHigh (fs f1 : ℚ) : ℚ := min (f1 / (fs / 2)) (999 / 1000)

/-- `np.diff`: consecutive differences. -/
def listDiffs (xs : List ℚ) : List ℚ := (xs.tail.zip xs).map (fun p => p.1 - p.2)

/-- Population variance, i.e. `np.std(xs)**2`. -/
def listVar (xs : List ℚ) : ℚ := listMean (xs.map (fun x => (x - listMean xs) ^ 2))

/-- A click-train record as emitted by `detect_click_trains`. -/
structure ClickTrain where
  start_time : ℚ
  end_time : ℚ
  duration : ℚ
  n_clicks : ℕ
  mean_ici : ℚ
  ici_var : ℚ
  click_rate : ℚ
  click_times : List ℚ
  deriving DecidableEq, Repr

/-- Build the emitted dictionary for one accepted train. -/
def mkClickTrain (train : List ℚ) : ClickTrain :=
  { start_time := train.headD 0
    end_time := train.getLastD 0
    duration := train.getLastD 0 - train.headD 0
    n_clicks := train.length
    mean_ici := listMean (listDiffs train)
    ici_var := listVar (listDiffs train)
    click_rate :=
      if train.headD 0 < train.getLastD 0 then
        (train.length : ℚ) / (train.getLastD 0 - train.headD 0)
      else 0
    click_times := train }

/-- Emit a finished train if it is long enough (`len >= min_clicks`), its
mean ICI is positive, and its ICIs are regular (`cv < 0.5`, squared form). -/
def flushTrain (min_clicks : ℕ) (train : List ℚ) : List ClickTrain :=
  if min_clicks ≤ train.length then
    if 0 < listMean (listDiffs train) ∧
        listVar (listDiffs train) < listMean (listDiffs train) ^ 2 / 4 then
      [mkClickTrain train]
    else []
  else []

/-- The grouping loop over `peak_times[1:]`: extend the current train while
`ici <= max_ici`, otherwise flush it and start a new one; the last train is
flushed after the loop.  `prev` is the previous peak time, which is also the
last element of `current`. -/
def clickTrainLoop (min_clicks : ℕ) (max_ici : ℚ) :
    List ℚ → ℚ → List ℚ → List ClickTrain
  | current, _, [] => flushTrain min_clicks current
  | current, prev, p :: rest =>
    if p - prev ≤ max_ici then
      clickTrainLoop min_clicks max_ici (current ++ [p]) p rest
    else
      flushTrain min_clicks current ++ clickTrainLoop min_clicks max_ici [p] p rest

def detect_click_trains (fs f0 f1 : ℚ) (min_clicks : ℕ) (max_ici : ℚ)
    (peak_indices : List ℕ) : List ClickTrain :=
  if bandHigh fs f1 ≤ bandLow fs f0 then []
  else if peak_indices.length < min_clicks then []
  else
    match peak_indices.map (fun i : ℕ => (i : ℚ) / fs) with
    | [] => []
    | p0 :: rest => clickTrainLoop min_clicks max_ici [p0] p0 rest

lemma mem_flushTrain {mc : ℕ} {train : List ℚ} {ct : ClickTrain}
    (h : ct ∈ flushTrain mc train) :
    ct = mkClickTrain train ∧ mc ≤ train.length ∧
      0 < listMean (listDiffs train) ∧
      listVar (listDiffs train) < listMean (listDiffs train) ^ 2 / 4 := by
  unfold flushTrain at h
  split at h
  · split at h
    · next h1 h2 => simpa using ⟨List.mem_singleton.mp h, h1, h2⟩
    · simp at h
  · simp at h

lemma listDiffs_singleton (p : ℚ) : listDiffs [p] = [] := rfl

lemma listDiffs_append_last :
    ∀ (xs : List ℚ) (p : ℚ), xs ≠ [] →
      listDiffs (xs ++ [p]) = listDiffs xs ++ [p - xs.getLastD 0]
  | [], _, hne => absurd rfl hne
  | [x], p, _ => rfl
  | x :: y :: rest, p, _ => by
    have ih := listDiffs_append_last (y :: rest) p (by simp)
    simp only [listDiffs, List.cons_append, List.tail_cons, List.zip_cons_cons,
      List.map_cons] at ih ⊢
    rw [List.getLastD_cons]
    exact congrArg _ ih

lemma mem_clickTrainLoop {mc : ℕ} {mi : ℚ} :
    ∀ {rest : List ℚ} {current : List ℚ} {prev : ℚ} {ct : ClickTrain},
      current ≠ [] → current.getLastD 0 = prev →
      (∀ d ∈ listDiffs current, d ≤ mi) →
      ct ∈ clickTrainLoop mc mi current prev rest →
      ∃ train : List ℚ, ct = mkClickTrain train ∧ mc ≤ train.length ∧
        (∀ d ∈ listDiffs train, d ≤ mi) ∧
        0 < listMean (listDiffs train) ∧
        listVar (listDiffs train) < listMean (listDiffs train) ^ 2 / 4 := by
  intro rest
  induction rest with
  | nil =>
    intro current prev ct hne hlast hinv hmem
    rw [clickTrainLoop] at hmem
    obtain ⟨heq, hlen, hm, hv⟩ := mem_flushTrain hmem
    exact ⟨current, heq, hlen, hinv, hm, hv⟩
  | cons p rest ih =>
    intro current prev ct hne hlast hinv hmem
    rw [clickTrainLoop] at hmem
    split at hmem
    · next hici =>
      refine ih (by simp) (by simp) ?_ hmem
      rw [listDiffs_append_last current p hne, hlast]
      intro d hd
      rcases List.mem_append.mp hd with hd' | hd'
      · exact hinv d hd'
      · rw [List.mem_singleton.mp hd']
        exact hici
    · rcases List.mem_append.mp hmem with hmem' | hmem'
      · obtain ⟨heq, hlen, hm, hv⟩ := mem_flushTrain hmem'
        exact ⟨current, heq, hlen, hinv, hm, hv⟩
      · refine ih (by simp) (by simp) ?_ hmem'
        rw [listDiffs_singleton]
        simp

/-- C8.  Every click train emitted by `detect_click_trains` has at least
`min_clicks` clicks, every inter-click interval at most `max_ici`, a
positive mean ICI, and a coefficient of variation of its ICIs strictly
below `0.5` (stated as `variance < mean²/4`, the squared form of
`std/mean < 0.5`). -/
theorem click_train_postconditions (fs f0 f1 : ℚ) (min_clicks : ℕ) (max_ici : ℚ)
    (peak_indices : List ℕ) (ct : ClickTrain)
    (hct : ct ∈ detect_click_trains fs f0 f1 min_clicks max_ici peak_indices) :
    min_clicks ≤ ct.n_clicks ∧
    (∀ d ∈ listDiffs ct.click_times, d ≤ max_ici) ∧
    0 < ct.mean_ici ∧
    ct.ici_var < ct.mean_ici ^ 2 / 4 := by
  rw [detect_click_trains] at hct
  split at hct
  · simp at hct
  · split at hct
    · simp at hct
    · split at hct
      · simp at hct
      · next p0 rest heq =>
        obtain ⟨train, rfl, hlen, hinv, hm, hv⟩ :=
          mem_clickTrainLoop (by simp) (by simp) (by simp [listDiffs_singleton]) hct
        exact ⟨hlen, hinv, hm, hv⟩

/-- 16 sharp peaks spaced 1920 samples (10 ms at 192 kHz) apart. -/
def demoPeaks : List ℕ := (List.range 16).map (fun i => i * 1920)

/-- The corresponding peak times in seconds. -/
def demoTimes : List ℚ := demoPeaks.map (fun i : ℕ => (i : ℚ) / 192000)

theorem click_train_postconditions_witness :
    mkClickTrain demoTimes ∈
      detect_click_trains 192000 20000 150000 15 (1 / 20) demoPeaks ∧
    (15 ≤ (mkClickTrain demoTimes).n_clicks ∧
      (∀ d ∈ listDiffs (mkClickTrain demoTimes).click_times, d ≤ (1 : ℚ) / 20) ∧
      0 < (mkClickTrain demoTimes).mean_ici ∧
      (mkClickTrain demoTimes).ici_var < (mkClickTrain demoTimes).mean_ici ^ 2 / 4) :=
  ⟨by decide, click_train_postconditions 192000 20000 150000 15 (1 / 20) demoPeaks
    (mkClickTrain demoTimes) (by decide)⟩

/-! ### Whistle detector (`src/dolphain/signal.py`, `detect_whistles`)

`detect_whistles` band-pass filters the data with
`butter(4, [low, high], btype="bandpass")`, builds a Hann spectrogram, and
ridge-tracks the dB matrix.  The embedding keeps the control flow exactly:
`scipy.signal.butter` validates digital critical frequencies and raises
`ValueError` unless `0 < Wn < 1`, modelled as the `Except.error` branch —
note the source has no `high <= low` guard here, unlike
`detect_click_trains`.  The Hann spectrogram of the filtered data is
transcendental, so the dB matrix `10*log10(Sxx + 1e-12)` enters as the
column-major parameter `SxxT` (one list of frequency-bin powers per time
step); its frequency and time coordinate vectors are the exact rational
grids `f_k = k*fs/nperseg` (for `k ≤ nperseg/2`) and
`t_k = (nperseg/2 + k*hop)/fs` with `hop = nperseg - noverlap` and the
default `noverlap = int(0.75*nperseg)`.  `np.percentile` uses linear
interpolation on the sorted flattened matrix; `maximum_filter(size=(3,1))`
takes the vertical maximum over a 3-bin window with reflected boundaries. -/

/-- `np.percentile(xs, q)` with the default linear interpolation. -/
def percentile (xs : List ℚ) (q : ℚ) : ℚ :=
  let sorted := xs.insertionSort (· ≤ ·)
  let n := sorted.length
  let k : ℚ := ((n - 1 : ℕ) : ℚ) * q / 100
  let lo : ℕ := k.floor.toNat
  let hi : ℕ := min (lo + 1) (n - 1)
  sorted.getD lo 0 + (k - (lo : ℚ)) * (sorted.getD hi 0 - sorted.getD lo 0)

/-- `.min()` of a nonempty array. -/
def listMin : List ℚ → ℚ
  | [] => 0
  | x :: xs => xs.foldl min x

/-- `.max()` of a nonempty array. -/
def listMax : List ℚ → ℚ
  | [] => 0
  | x :: xs => xs.foldl max x

/-- `abs(a - b)` for indices. -/
def natDist (a b : ℕ) : ℕ := max a b - min a b

/-- `maximum_filter(col, size=3)` along one column at position `j`
(mode `reflect`: out-of-range neighbours reflect onto the edge bins). -/
def vertMax3 (col : List ℚ) (j : ℕ) : ℚ :=
  max (col.getD (if j = 0 then 0 else j - 1) 0)
    (max (col.getD j 0) (col.getD (min (j + 1) (col.length - 1)) 0))

/-- Ridge test at one bin: a vertical local maximum that exceeds the power
threshold (`local_max & strong_points`). -/
def isRidge (thr : ℚ) (col : List ℚ) (j : ℕ) : Bool :=
  decide (vertMax3 col j = col.getD j 0) && decide (thr < col.getD j 0)

/-- `np.argmax` over candidate indices by power: first index of the maximum. -/
def argmaxBy (f : ℕ → ℚ) : List ℕ → Option ℕ
  | [] => none
  | j :: rest => some (rest.foldl (fun best k => if f best < f k then k else best) j)

/-- An in-progress whistle contour
(`{"time_indices": .., "freq_indices": ..}`). -/
structure WContour where
  time_indices : List ℕ
  freq_indices : List ℕ
  deriving DecidableEq, Repr

/-- Try to extend the first existing contour whose last point is at the
previous time step and within 10 frequency bins; returns the updated list
and whether the point was consumed (`added`). -/
def addToContours (t j : ℕ) : List WContour → List WContour × Bool
  | [] => ([], false)
  | w :: ws =>
    if w.freq_indices ≠ [] ∧ t = w.time_indices.getLastD 0 + 1 ∧
        natDist j (w.freq_indices.getLastD 0) < 10 then
      ({ time_indices := w.time_indices ++ [t], freq_indices := w.freq_indices ++ [j] } :: ws,
        true)
    else
      let r := addToContours t j ws
      (w :: r.1, r.2)

/-- The per-time-step ridge-tracking loop: pick the strongest ridge of each
column, extend an existing contour or start a new one. -/
def whistleLoop (thr : ℚ) : ℕ → List (List ℚ) → List WContour → List WContour
  | _, [], acc => acc
  | t, col :: rest, acc =>
    match argmaxBy (fun j => col.getD j 0)
        ((List.range col.length).filter (isRidge thr col)) with
    | none => whistleLoop thr (t + 1) rest acc
    | some strongest =>
      let r := addToContours t strongest acc
      whistleLoop thr (t + 1) rest (if r.2 then r.1 else r.1 ++ [⟨[t], [strongest]⟩])

/-- A whistle record as emitted by `detect_whistles`. -/
structure Whistle where
  time : List ℚ
  frequency : List ℚ
  power : List ℚ
  start_time : ℚ
  end_time : ℚ
  duration : ℚ
  min_freq : ℚ
  max_freq : ℚ
  mean_freq : ℚ
  deriving DecidableEq, Repr

/-- Spectrogram time coordinate `t_k = (nperseg/2 + k*hop)/fs`. -/
def specTime (fs : ℚ) (nperseg hop k : ℕ) : ℚ :=
  ((nperseg / 2 + k * hop : ℕ) : ℚ) / fs

/-- Post-filter of one contour: at least `min_contour_points` points and at
least `min_duration` seconds, then the emitted dictionary. -/
def whistleEmit (fs : ℚ) (nperseg hop : ℕ) (min_duration : ℚ)
    (min_contour_points : ℕ) (f_filtered : List ℚ) (SfT : List (List ℚ))
    (w : WContour) : Option Whistle :=
  if w.time_indices.length < min_contour_points then none
  else
    let times := w.time_indices.map (specTime fs nperseg hop)
    let freqs := w.freq_indices.map (fun j => f_filtered.getD j 0)
    let powers := (w.freq_indices.zip w.time_indices).map
      (fun p => (SfT.getD p.2 []).getD p.1 0)
    if times.getLastD 0 - times.headD 0 < min_duration then none
    else
      some
        { time := times
          frequency := freqs
          power := powers
          start_time := times.headD 0
          end_time := times.getLastD 0
          duration := times.getLastD 0 - times.headD 0
          min_freq := listMin freqs
          max_freq := listMax freqs
          mean_freq := listMean freqs }

/-- The indices of the `nperseg/2 + 1` spectrogram frequency bins
(`f_k = k*fs/nperseg`) that fall inside the requested range
(`freq_mask = (f >= freq_range[0]) & (f <= freq_range[1])`). -/
def whistleKeptRows (fs f0 f1 : ℚ) (nperseg : ℕ) : List ℕ :=
  (List.range (nperseg / 2 + 1)).filter
    (fun k => decide (f0 ≤ (k : ℚ) * fs / (nperseg : ℚ)) &&
      decide ((k : ℚ) * fs / (nperseg : ℚ) ≤ f1))

def detect_whistles (fs f0 f1 min_duration : ℚ) (nperseg : ℕ)
    (power_threshold_percentile : ℚ) (min_contour_points : ℕ)
    (SxxT : List (List ℚ)) : Except String (List Whistle) :=
  -- butter(4, [low, high], btype="bandpass") raises unless 0 < Wn < 1;
  -- there is no empty-result guard before this call.
  if bandLow fs f0 ≤ 0 ∨ 1 ≤ bandLow fs f0 ∨ bandHigh fs f1 ≤ 0 ∨ 1 ≤ bandHigh fs f1 then
    Except.error "butter: digital filter critical frequencies must be 0 < Wn < 1"
  -- sosfiltfilt and the spectrogram itself are abstracted; SxxT is the
  -- resulting dB matrix.  `Sxx_filtered.size == 0` iff a dimension is 0.
  else if (whistleKeptRows fs f0 f1 nperseg).length = 0 ∨ SxxT.length = 0 then
    Except.ok []
  else
    let keptRows := whistleKeptRows fs f0 f1 nperseg
    let f_filtered := keptRows.map (fun k : ℕ => (k : ℚ) * fs / (nperseg : ℚ))
    let SfT := SxxT.map (fun col => keptRows.map (fun k => col.getD k 0))
    let thr := percentile SfT.flatten power_threshold_percentile
    Except.ok ((whistleLoop thr 0 SfT []).filterMap
      (whistleEmit fs nperseg (nperseg - (3 * nperseg) / 4) min_duration
        min_contour_points f_filtered SfT))

instance {ε α : Type} [DecidableEq ε] [DecidableEq α] : DecidableEq (Except ε α) := fun
  | .error e, .error f => decidable_of_iff (e = f) (by simp)
  | .error _, .ok _ => isFalse (by simp)
  | .ok _, .error _ => isFalse (by simp)
  | .ok a, .ok b => decidable_of_iff (a = b) (by simp)

/-- C5 (counterexample).  A frequency range lying entirely above the Nyquist
limit makes `detect_whistles` raise (scipy `butter` rejects `Wn >= 1`):
at `fs = 192000` the range `(100000, 150000)` produces `ValueError`, not an
empty list. -/
theorem whistle_invalid_range_raises :
    detect_whistles 192000 100000 150000 (1 / 10) 2048 85 5 [[0]] =
      Except.error "butter: digital filter critical frequencies must be 0 < Wn < 1" := by
  decide

/-- C5 (amended).  The click-train detector returns `[]` (no exception) for
any range whose clamped band is degenerate (`high <= low`, which covers
ranges at or above Nyquist); the whistle detector, which lacks that guard,
raises the `butter` error whenever the clamped band reaches `Wn >= 1`
(range start at or above Nyquist), and returns `[]` without raising only
when the band is filter-valid but selects no spectrogram frequency bin. -/
theorem detectors_invalid_range_amended :
    (∀ (fs f0 f1 : ℚ) (mc : ℕ) (mi : ℚ) (peaks : List ℕ),
        bandHigh fs f1 ≤ bandLow fs f0 →
        detect_click_trains fs f0 f1 mc mi peaks = []) ∧
    (∀ (fs f0 f1 md : ℚ) (nseg : ℕ) (pct : ℚ) (mcp : ℕ) (SxxT : List (List ℚ)),
        1 ≤ bandLow fs f0 →
        detect_whistles fs f0 f1 md nseg pct mcp SxxT =
          Except.error "butter: digital filter critical frequencies must be 0 < Wn < 1") ∧
    (∀ (fs f0 f1 md : ℚ) (nseg : ℕ) (pct : ℚ) (mcp : ℕ) (SxxT : List (List ℚ)),
        ¬(bandLow fs f0 ≤ 0 ∨ 1 ≤ bandLow fs f0 ∨ bandHigh fs f1 ≤ 0 ∨ 1 ≤ bandHigh fs f1) →
        (whistleKeptRows fs f0 f1 nseg).length = 0 →
        detect_whistles fs f0 f1 md nseg pct mcp SxxT = Except.ok []) := by
  refine ⟨?_, ?_, ?_⟩
  · intro fs f0 f1 mc mi peaks h
    rw [detect_click_trains, if_pos h]
  · intro fs f0 f1 md nseg pct mcp SxxT h
    rw [detect_whistles, if_pos (Or.inr (Or.inl h))]
  · intro fs f0 f1 md nseg pct mcp SxxT h1 h2
    rw [detect_whistles, if_neg h1, if_pos (Or.inl h2)]

theorem detectors_invalid_range_amended_witness :
    (bandHigh 192000 100000 ≤ bandLow 192000 150000 ∧
      detect_click_trains 192000 150000 100000 15 (1 / 20) [0] = []) ∧
    ((1 : ℚ) ≤ bandLow 192000 98000 ∧
      detect_whistles 192000 98000 99000 (1 / 10) 2048 85 5 [[0]] =
        Except.error "butter: digital filter critical frequencies must be 0 < Wn < 1") ∧
    (¬(bandLow 192000 20000 ≤ 0 ∨ 1 ≤ bandLow 192000 20000 ∨
        bandHigh 192000 20001 ≤ 0 ∨ 1 ≤ bandHigh 192000 20001) ∧
      (whistleKeptRows 192000 20000 20001 2048).length = 0 ∧
      detect_whistles 192000 20000 20001 (1 / 10) 2048 85 5 [[5]] = Except.ok []) :=
  ⟨⟨by decide, detectors_invalid_range_amended.1 192000 150000 100000 15 (1 / 20) [0]
      (by decide)⟩,
   ⟨by decide, detectors_invalid_range_amended.2.1 192000 98000 99000 (1 / 10) 2048 85 5 [[0]]
      (by decide)⟩,
   ⟨by decide, by decide,
    detectors_invalid_range_amended.2.2 192000 20000 20001 (1 / 10) 2048 85 5 [[5]]
      (by decide) (by decide)⟩⟩

/-! ### Chirp detector (`src/scripts/quick_find.py`, `detect_chirps`)

`detect_chirps` hardcodes `nperseg = 8192` and `noverlap = 4096` (hop 4096),
computes the dB spectrogram of the input, thresholds at
`max(95th percentile, 10th percentile + 15 dB)`, collects per-column peaks
that strictly exceed both time neighbours (whole-column comparisons) and,
for interior bins, both frequency neighbours, extends existing contours to
the closest peak within 8 bins, starts at most 3 new contours per time step
(the strongest unused peaks), and post-filters by point count, endpoint
sweep in bins, and jump smoothness.  As for the other detectors the dB
matrix `10*log10(Sxx + 1e-12)` enters as the column-major parameter `SxxT`;
its coordinate grids are `f_j = j*fs/8192` and `t_k = (4096 + k*4096)/fs`.
`np.argsort` ties (unstable quicksort) are broken by list position here.
The smoothness test `std(changes) > 3*mean(changes)` (a square root) is
represented by the equivalent rational comparison
`var(changes) > 9*mean(changes)²`, valid since both sides of the original
are nonnegative for the absolute jump list. -/

/-- Python `int(q)`: truncation toward zero. -/
def ratTrunc (q : ℚ) : ℤ := if q < 0 then -((-q).floor) else q.floor

/-- `np.abs(np.diff(xs))` over an index list, as rationals. -/
def listAbsDiffs (xs : List ℕ) : List ℚ :=
  (xs.tail.zip xs).map (fun p => ((natDist p.1 p.2 : ℕ) : ℚ))

/-- An in-progress chirp contour. -/
structure CContour where
  time_indices : List ℕ
  freq_indices : List ℕ
  end_time_idx : ℕ
  deriving DecidableEq, Repr

/-- Per-column peak mask: strictly above threshold, strictly above the same
bin in the neighbouring time columns (when they exist), and for interior
bins strictly above both frequency neighbours. -/
def chirpPeaks (thr : ℚ) (prev : Option (List ℚ)) (col : List ℚ)
    (next : Option (List ℚ)) : List ℕ :=
  (List.range col.length).filter (fun i =>
    decide (thr < col.getD i 0) &&
    (match prev with
     | none => true
     | some pc => decide (pc.getD i 0 < col.getD i 0)) &&
    (match next with
     | none => true
     | some nc => decide (nc.getD i 0 < col.getD i 0)) &&
    (decide (i = 0) || decide (i = col.length - 1) ||
      (decide (col.getD (i - 1) 0 < col.getD i 0) &&
        decide (col.getD (i + 1) 0 < col.getD i 0))))

/-- `np.argmin(np.abs(peaks - last))`: the first peak closest to `last`. -/
def closestPeak (peaks : List ℕ) (last : ℕ) : Option ℕ :=
  match peaks with
  | [] => none
  | p :: rest =>
    some (rest.foldl (fun best q => if natDist q last < natDist best last then q else best) p)

/-- One extension sweep over the contour list at time `t`: every contour
whose last point is at `t - 1` is extended by the closest peak when that
peak is within 8 bins; returns the updated contours and the peaks consumed
(`extended`). -/
def extendChirps (t : ℕ) (peaks : List ℕ) : List CContour → List CContour × List ℕ
  | [] => ([], [])
  | c :: cs =>
    let r := extendChirps t peaks cs
    if c.end_time_idx + 1 = t then
      match closestPeak peaks (c.freq_indices.getLastD 0) with
      | none => (c :: r.1, r.2)
      | some closest =>
        if natDist closest (c.freq_indices.getLastD 0) < 8 then
          ({ time_indices := c.time_indices ++ [t]
             freq_indices := c.freq_indices ++ [closest]
             end_time_idx := t } :: r.1, closest :: r.2)
        else (c :: r.1, r.2)
    else (c :: r.1, r.2)

/-- The strongest three peaks by power (`np.argsort(peak_powers)[-3:]`);
argsort ties are broken by position. -/
def top3ByPower (pw : ℕ → ℚ) (unused : List ℕ) : List ℕ :=
  let idxs := (List.range unused.length).insertionSort
    (fun i j => pw (unused.getD i 0) < pw (unused.getD j 0) ∨
      (pw (unused.getD i 0) = pw (unused.getD j 0) ∧ i ≤ j))
  (idxs.drop (idxs.length - 3)).map (fun i => unused.getD i 0)

/-- The per-time-step tracking loop (`cols` is the full matrix, used for the
neighbour columns; the second list is the remaining columns). -/
def chirpLoopGo (thr : ℚ) (cols : List (List ℚ)) :
    List (List ℚ) → ℕ → List CContour → List CContour
  | [], _, acc => acc
  | col :: rest, t, acc =>
    let peaks := chirpPeaks thr
      (if t = 0 then none else some (cols.getD (t - 1) [])) col
      (if t + 1 = cols.length then none else some (cols.getD (t + 1) []))
    let r := extendChirps t peaks acc
    let unused := peaks.filter (fun p => !(r.2.contains p))
    let starters :=
      if 3 < unused.length then top3ByPower (fun p => col.getD p 0) unused else unused
    chirpLoopGo thr cols rest (t + 1)
      (r.1 ++ starters.map (fun p => ⟨[t], [p], t⟩))

/-- Post-filter of one contour and the emitted chirp dictionary. -/
def chirpEmit (fs min_duration freq_sweep_min : ℚ) (c : CContour) : Option Chirp :=
  if (c.time_indices.length : ℤ) < ratTrunc (min_duration * fs / 8192) then none
  else if ((natDist (c.freq_indices.getLastD 0) (c.freq_indices.headD 0) : ℕ) : ℚ) <
      freq_sweep_min / (fs / 8192) then none
  else if 9 * listMean (listAbsDiffs c.freq_indices) ^ 2 <
      listVar (listAbsDiffs c.freq_indices) then none
  else
    let times := c.time_indices.map (fun k => specTime fs 8192 4096 k)
    let freqs := c.freq_indices.map (fun j : ℕ => (j : ℚ) * fs / 8192)
    some
      { start_time := times.headD 0
        end_time := times.getLastD 0
        duration := times.getLastD 0 - times.headD 0
        start_freq := freqs.headD 0
        end_freq := freqs.getLastD 0
        freq_sweep := |freqs.getLastD 0 - freqs.headD 0|
        sweep_rate :=
          if 0 < times.getLastD 0 - times.headD 0 then
            |freqs.getLastD 0 - freqs.headD 0| / (times.getLastD 0 - times.headD 0)
          else 0
        min_freq := listMin freqs
        max_freq := listMax freqs
        n_points := c.time_indices.length }

def detect_chirps (fs min_duration freq_sweep_min : ℚ)
    (SxxT : List (List ℚ)) : List Chirp :=
  let thr := max (percentile SxxT.flatten 95) (percentile SxxT.flatten 10 + 15)
  (chirpLoopGo thr SxxT SxxT 0 []).filterMap (chirpEmit fs min_duration freq_sweep_min)

/-- A spectrogram with seven strong alternating-bin peaks at time steps
0..6 over a quiet background: enough background entries that the 95th
percentile stays at the background level, so the threshold is the noise
floor + 15 dB. -/
def chirpDemoSxx : List (List ℚ) :=
  (List.range 72).map (fun t =>
    if t < 7 then (if t % 2 = 0 then [0, -100] else [-100, 0]) else [-100, -100])

/-- C6 (counterexample).  At `fs = 192000` with the default
`min_duration = 0.3` and `freq_sweep_min = 0`, `detect_chirps` emits a
7-point chirp of duration `6 * 4096/192000 = 0.128 s < 0.3 s`: the
point-count filter `int(min_duration * fs / nperseg) = 7` uses the window
size instead of the hop (and ignores the `n-1` spacing), so emitted
durations can undercut `min_duration`. -/
theorem chirp_min_duration_violated :
    ∃ c ∈ detect_chirps 192000 (3 / 10) 0 chirpDemoSxx, c.duration < 3 / 10 := by
  decide

lemma headD_map_zero {g : ℕ → ℚ} (hg : g 0 = 0) (xs : List ℕ) :
    (xs.map g).headD 0 = g (xs.headD 0) := by
  cases xs <;> simp [hg]

lemma getLastD_map_general (g : ℕ → ℚ) :
    ∀ (xs : List ℕ) (d : ℕ), (xs.map g).getLastD (g d) = g (xs.getLastD d)
  | [], _ => rfl
  | x :: t, d => by
    rw [List.map_cons, List.getLastD_cons, List.getLastD_cons]
    exact getLastD_map_general g t x

lemma getLastD_map_zero {g : ℕ → ℚ} (hg : g 0 = 0) (xs : List ℕ) :
    (xs.map g).getLastD 0 = g (xs.getLastD 0) := by
  rw [← hg, getLastD_map_general]

lemma natDist_cast (a b : ℕ) : ((natDist a b : ℕ) : ℚ) = |(a : ℚ) - b| := by
  unfold natDist
  rcases le_total a b with h | h
  · have hq : (a : ℚ) ≤ b := by exact_mod_cast h
    rw [max_eq_right h, min_eq_left h, abs_of_nonpos (by linarith), Nat.cast_sub h]
    ring
  · have hq : (b : ℚ) ≤ a := by exact_mod_cast h
    rw [max_eq_left h, min_eq_right h, abs_of_nonneg (by linarith), Nat.cast_sub h]

/-- C6 (amended).  Every chirp emitted by `detect_chirps` comes from a
contour that passed the implemented post-filter: its point count is at
least `int(min_duration * fs / 8192)` (a point-count proxy that does not
guarantee `duration ≥ min_duration`, since consecutive spectrogram frames
are only `4096/fs` seconds apart), its endpoint frequency sweep is at
least `freq_sweep_min`, and the variance of its frame-to-frame frequency
jumps is at most `9×` their squared mean (`std ≤ 3×mean`). -/
lemma chirpEmit_eq_some {fs min_duration freq_sweep_min : ℚ} {ctr : CContour}
    {c : Chirp} (h : chirpEmit fs min_duration freq_sweep_min ctr = some c) :
    ratTrunc (min_duration * fs / 8192) ≤ (ctr.time_indices.length : ℤ) ∧
    freq_sweep_min / (fs / 8192) ≤
      ((natDist (ctr.freq_indices.getLastD 0) (ctr.freq_indices.headD 0) : ℕ) : ℚ) ∧
    listVar (listAbsDiffs ctr.freq_indices) ≤
      9 * listMean (listAbsDiffs ctr.freq_indices) ^ 2 ∧
    c.n_points = ctr.time_indices.length ∧
    c.freq_sweep = |(ctr.freq_indices.getLastD 0 : ℚ) * fs / 8192 -
      (ctr.freq_indices.headD 0 : ℚ) * fs / 8192| := by
  rw [chirpEmit] at h
  split at h
  next => exact absurd h (by simp)
  next g1 =>
    split at h
    next => exact absurd h (by simp)
    next g2 =>
      split at h
      next => exact absurd h (by simp)
      next g3 =>
        simp only [Option.some.injEq] at h
        subst h
        refine ⟨by omega, le_of_not_lt g2, le_of_not_lt g3, rfl, ?_⟩
        show |(ctr.freq_indices.map (fun j : ℕ => (j : ℚ) * fs / 8192)).getLastD 0 -
            (ctr.freq_indices.map (fun j : ℕ => (j : ℚ) * fs / 8192)).headD 0| = _
        rw [getLastD_map_zero (by simp), headD_map_zero (by simp)]

/-- C6 (amended).  Every chirp emitted by `detect_chirps` comes from a
contour that passed the implemented post-filter: its point count is at
least `int(min_duration * fs / 8192)` (a point-count proxy that does not
guarantee `duration ≥ min_duration`, since consecutive spectrogram frames
are only `4096/fs` seconds apart), its endpoint frequency sweep is at
least `freq_sweep_min`, and the variance of its frame-to-frame frequency
jumps is at most `9×` their squared mean (`std ≤ 3×mean`). -/
theorem chirp_postconditions (fs min_duration freq_sweep_min : ℚ)
    (SxxT : List (List ℚ)) (hfs : 0 < fs) (c : Chirp)
    (hc : c ∈ detect_chirps fs min_duration freq_sweep_min SxxT) :
    ∃ ctr : CContour,
      chirpEmit fs min_duration freq_sweep_min ctr = some c ∧
      ratTrunc (min_duration * fs / 8192) ≤ (c.n_points : ℤ) ∧
      freq_sweep_min ≤ c.freq_sweep ∧
      listVar (listAbsDiffs ctr.freq_indices) ≤
        9 * listMean (listAbsDiffs ctr.freq_indices) ^ 2 := by
  unfold detect_chirps at hc
  obtain ⟨ctr, hmem, hemit⟩ := List.mem_filterMap.mp hc
  obtain ⟨h1, h2, h3, h4, h5⟩ := chirpEmit_eq_some hemit
  refine ⟨ctr, hemit, by rw [h4]; exact h1, ?_, h3⟩
  rw [h5]
  have hbin : (0 : ℚ) < fs / 8192 := by positivity
  have hrw : (ctr.freq_indices.getLastD 0 : ℚ) * fs / 8192 -
      (ctr.freq_indices.headD 0 : ℚ) * fs / 8192 =
      ((ctr.freq_indices.getLastD 0 : ℚ) - (ctr.freq_indices.headD 0 : ℚ)) *
        (fs / 8192) := by
    ring
  rw [hrw, abs_mul, abs_of_pos hbin, ← natDist_cast]
  calc freq_sweep_min = freq_sweep_min / (fs / 8192) * (fs / 8192) := by
        field_simp
    _ ≤ ((natDist (ctr.freq_indices.getLastD 0) (ctr.freq_indices.headD 0) : ℕ) : ℚ) *
          (fs / 8192) :=
        mul_le_mul_of_nonneg_right h2 (le_of_lt hbin)

/-- The chirp emitted on `chirpDemoSxx` at the counterexample parameters. -/
def chirpDemoOut : Chirp :=
  { start_time := 8 / 375
    end_time := 56 / 375
    duration := 16 / 125
    start_freq := 0
    end_freq := 0
    freq_sweep := 0
    sweep_rate := 0
    min_freq := 0
    max_freq := 375 / 16
    n_points := 7 }

theorem chirp_postconditions_witness :
    (0 : ℚ) < 192000 ∧
      chirpDemoOut ∈ detect_chirps 192000 (3 / 10) 0 chirpDemoSxx ∧
      ∃ ctr : CContour,
        chirpEmit 192000 (3 / 10) 0 ctr = some chirpDemoOut ∧
        ratTrunc ((3 / 10) * 192000 / 8192) ≤ (chirpDemoOut.n_points : ℤ) ∧
        (0 : ℚ) ≤ chirpDemoOut.freq_sweep ∧
        listVar (listAbsDiffs ctr.freq_indices) ≤
          9 * listMean (listAbsDiffs ctr.freq_indices) ^ 2 :=
  ⟨by norm_num, by decide,
    chirp_postconditions 192000 (3 / 10) 0 chirpDemoSxx (by norm_num) chirpDemoOut
      (by decide)⟩

end Dolphain
